import Mathlib

/-!
Shallow embedding of `master/buildbot/changes/multigit.py` (the MultiGit
change source) and proofs about it.

Modelling conventions:
  - Python strings are Lean `String`s; where end-anchored slicing is involved
    the character list `List Char` is used.
  - Subprocess results (git output) enter the model as function parameters:
    `findRef gitd ref` stands for the settled result of `find_ref` (`none`
    models the missing-ref sentinel), `revsOf gitd tag prev` stands for the
    silenced result of `git rev-list tag --not prev` enriched by
    `get_metadata`, and so on.  The C library pair `strptime`/`mktime` is the
    parameter `conv`.
  - Twisted deferreds settle to values; a list of work items is modelled by
    the list of the outcomes the items settle to (`Except E A`).
  - Python float seconds are modelled as `Int` seconds; the claims at stake
    compare and order times, which the integer model preserves.
  - A Python runtime error arising from the source referencing an undefined
    name (`format_data` in `find_most_recent_tag` and in
    `describe_tag.summarise`) is modelled as `Except.error ()`.
-/

namespace Multigit

/-- Split a character list at every character satisfying `p`, keeping empty
pieces, as Python `str.split(sep)` does. -/
def splitWhen (p : Char → Bool) : List Char → List (List Char)
  | [] => [[]]
  | c :: rest =>
    let r := splitWhen p rest
    if p c then [] :: r else (c :: r.headD []) :: r.tail

/-- Python `str.split()` with no arguments: split on whitespace runs,
dropping empty pieces. -/
def pyWords (s : String) : List String :=
  ((splitWhen (fun c => c.isWhitespace) s.toList).map String.mk).filter (fun x => x ≠ "")

/-- Python `text.split` at newlines, keeping empty pieces. -/
def pyLines (s : String) : List String :=
  (splitWhen (fun c => c = '\n') s.toList).map String.mk

/-- Python `int` applied to a string of decimal digits. -/
def digitsToNat (l : List Char) : Nat :=
  l.foldl (fun a c => a * 10 + (c.toNat - 48)) 0

/-- The loop of multigit.py lines 175-176: while the message starts with a
space or a tab, drop its first character.  Structural recursion on the
character list. -/
def stripLeadingWs : List Char → List Char
  | [] => []
  | c :: rest => if c = ' ' ∨ c = '\t' then stripLeadingWs rest else c :: rest

/-- Does `needle` occur at the head of `hay`?  Models Python string
containment checks together with `hasSeg`. -/
def startsWithSeg : List Char → List Char → Bool
  | [], _ => true
  | _ :: _, [] => false
  | a :: as, b :: bs => a = b && startsWithSeg as bs

/-- Python `needle in hay` on strings: `needle` occurs contiguously in
`hay`. -/
def hasSeg (needle : List Char) : List Char → Bool
  | [] => needle.isEmpty
  | c :: rest => startsWithSeg needle (c :: rest) || hasSeg needle rest

/-- One pass of Python `str.replace(old, new)`: replace non-overlapping
occurrences of `old` left to right.  The `Nat` argument is fuel; the input
length always suffices because each step consumes at least one character. -/
def replaceSegF (old new : List Char) : Nat → List Char → List Char
  | _, [] => []
  | 0, l => l
  | fuel + 1, c :: rest =>
    if startsWithSeg old (c :: rest) && !old.isEmpty then
      new ++ replaceSegF old new fuel ((c :: rest).drop old.length)
    else c :: replaceSegF old new fuel rest

/-- Python `s.replace(old, new)` for non-empty `old`. -/
def pyReplace (s old new : String) : String :=
  String.mk (replaceSegF old.toList new.toList s.toList.length s.toList)

/-- Python `regexp and match(regexp, s)` for an optional anchored regexp:
the regexp itself is abstracted to the predicate it decides. -/
def optMatch (om : Option (String → Bool)) (s : String) : Bool :=
  match om with
  | some m => m s
  | none => false

/-- A revision record, the dictionary built by `get_metadata.decode`
(multigit.py lines 146-179) and later extended with a `branch` key by
`assign_revision_to_branches`.  Keys a given run never sets are modelled by
the defaults. -/
structure Rev where
  revision : String := ""
  gitd : String := ""
  author : String := ""
  email : String := ""
  date : String := ""
  commit_time : Int := 0
  message : String := ""
  files : List String := []
  branch : String := ""
deriving DecidableEq

/-- The change dictionary assembled by `describe_tag.summarise` and mutated
by `MultiGit.create_tag.store_change` before `addChange(**tagdata)`.
The empty dictionary returned by `describe_tag` on an empty range is the
record with all defaults. -/
structure Summary where
  when : Int := 0
  revision : String := ""
  author : String := ""
  files : List String := []
  comments : String := ""
  project : String := ""
  branch : String := ""
deriving DecidableEq

/-- Ordering of revisions used by the `sorted` call over
(commit_time, revision) pairs in `summarise` (multigit.py line 324): the
tuple comparison is keyed on the commit time. -/
def revLE (a b : Rev) : Prop := a.commit_time ≤ b.commit_time

instance : DecidableRel revLE :=
  fun a b => inferInstanceAs (Decidable (a.commit_time ≤ b.commit_time))

instance : IsTotal Rev revLE := ⟨fun a b => Int.le_total a.commit_time b.commit_time⟩

instance : IsTrans Rev revLE := ⟨fun _ _ _ h1 h2 => Int.le_trans h1 h2⟩

/-- String ordering for Python `sorted` on lists of strings. -/
def strLE (a b : String) : Prop := a ≤ b

instance : DecidableRel strLE := fun a b => inferInstanceAs (Decidable (a ≤ b))

def defaultRev : Rev := {}

/-- Lines 157-163 of `get_metadata.decode`: compute `commit_time` from the
joined date string.  `conv` abstracts `mktime(strptime(_, fmt)[:8] + [0])`,
the C library conversion applied to the date with the zone suffix removed. -/
def commit_time_of (conv : String → Int) (date : List Char) : Int :=
  let n := date.length
  let hours := digitsToNat ((date.drop (n - 4)).take 2)
  let minutes := digitsToNat (date.drop (n - 2))
  let magn : Int := ((3600 * hours + 60 * minutes : Nat) : Int)
  let sign := date.getD (n - 5) ' '
  let tzoffset : Int := if sign = '+' then -magn else magn
  conv (String.mk (date.take (n - 6))) + tzoffset

/-- Python `'\n'.join(lines)`, producing the joined character list. -/
def joinLines : List String → List Char
  | [] => []
  | [l] => l.toList
  | l :: rest => l.toList ++ '\n' :: joinLines rest

/-- Lines 164-177 of `get_metadata.decode`: extract the message paragraph
between the first blank line and the next blank line, truncate past 4000
characters, then strip leading spaces and tabs. -/
def message_of_lines (out : List String) : String :=
  let rest := out.dropWhile (fun l => l ≠ "")
  let body := (rest.drop 1).takeWhile (fun l => l ≠ "")
  let message := joinLines body
  let message :=
    if message.length > 4000 then message.take 4000 ++ "...".toList else message
  String.mk (stripLeadingWs message)

/-- The message-processing rule as the claim words it: every line of the
body has its leading spaces and tabs stripped, and the truncation applies
to the message whose lines were already stripped.  This definition follows
the claim, not the source; it is compared against `message_of_lines`. -/
def message_claimed (out : List String) : String :=
  let rest := out.dropWhile (fun l => l ≠ "")
  let body := (rest.drop 1).takeWhile (fun l => l ≠ "")
  let stripped := body.map (fun l => String.mk (stripLeadingWs l.toList))
  let message := joinLines stripped
  String.mk (if message.length > 4000 then message.take 4000 ++ "...".toList else message)

/-- `get_metadata.decode` (multigit.py lines 146-179) applied to the lines
of `git show --summary` output.  `file_changes` (the `diff --raw` pass) is
not part of any claim and leaves `files` empty here, as `decode` itself
does. -/
def decode (conv : String → Int) (gitd revision : String) (outs : String) : Rev :=
  let out := pyLines outs
  let author_lines := out.filter (fun x => startsWithSeg "Author:".toList x.toList)
  let base : Rev := { revision := revision, gitd := gitd }
  let r1 :=
    match author_lines with
    | [] => base
    | l :: _ =>
        { base with
          author := " ".intercalate (((pyWords l).drop 1).dropLast),
          email := (pyWords l).getLastD "" }
  let date_lines := out.filter (fun x => startsWithSeg "Date:".toList x.toList)
  let r2 :=
    match date_lines with
    | [] => r1
    | l :: _ =>
        let date := " ".intercalate ((pyWords l).drop 1)
        { r1 with
          date := date,
          commit_time := commit_time_of conv date.toList }
  { r2 with message := message_of_lines out, files := [] }

/-- `safe_branch` (multigit.py line 366). -/
def safe_branch (x : String) : String :=
  pyReplace (pyReplace x " " "_") "." "_"

/-- `make_tag` (multigit.py line 295). -/
def make_tag (tag_format branch : String) (index : Int) : String :=
  pyReplace (pyReplace tag_format "BRANCH" (safe_branch branch)) "INDEX" (toString index)

/-!  The parallel sequencer (`ListProcessor` and `sequencer`,
multigit.py lines 67-110, and `check_list`, lines 260-274).  Work items are
modelled by the outcomes they settle to.  A `DeferredList` created with
`consumeErrors=True` always calls back with the full (status, value) list,
so `record` keeps issuing the next chunk whatever the statuses were; the
output below is exactly the accumulated `self.out`, and an item appears in
it iff its deferred was created and awaited, that is, iff it was started. -/

/-- `ListProcessor.tick` run to completion with chunk size `n`: the
(status, value) pairs accumulated into `self.out`, in input order.  The
first argument of the recursion is fuel; `tick` consumes at least one item
per round whenever `1 ≤ n`, so `items.length` rounds always suffice. -/
def lp_tick (E A : Type) (n : Nat) : Nat → List (Except E A) → List (Except E A)
  | 0, _ => []
  | _ + 1, [] => []
  | fuel + 1, l => l.take n ++ lp_tick E A n fuel (l.drop n)

/-- `check_list` (multigit.py lines 260-274): drop the status fields,
surfacing the first error if there is one, else the values in order. -/
def check_list {E A : Type} : List (Except E A) → Except E (List A)
  | [] => .ok []
  | .error e :: _ => .error e
  | .ok a :: rest => (check_list rest).map (fun l => a :: l)

/-- `sequencer` (multigit.py lines 97-110): run the items in chunks of `n`
and post-process with `check_list`. -/
def sequencer_model {E A : Type} (items : List (Except E A)) (n : Nat) : Except E (List A) :=
  check_list (lp_tick E A n items.length items)

/-- First error in a settled outcome list, in input order (specification
side, used to state what `sequencer` surfaces). -/
def firstError {E A : Type} : List (Except E A) → Option E
  | [] => none
  | .error e :: _ => some e
  | .ok _ :: rest => firstError rest

/-- The successful values of a settled outcome list, in input order
(specification side). -/
def okValues {E A : Type} : List (Except E A) → List A
  | [] => []
  | .error _ :: rest => okValues rest
  | .ok a :: rest => a :: okValues rest

/-- `find_most_recent_tag` (multigit.py lines 276-288).  `findRef gitd ref`
is the settled `find_ref` result: `none` for the missing-ref sentinel.
Line 283 tests `if seq:`, the truthiness of the whole result list, so any
non-empty repository list makes the candidate itself returned; when the
list is empty and `index > 0`, line 287 evaluates the undefined name
`format_data`, a `NameError`, modelled as `Except.error ()`. -/
def find_most_recent_tag (findRef : String → String → Option String)
    (repositories : List String) (tag_format branch : String) (index : Int) :
    Except Unit (Option String) :=
  let tag := make_tag tag_format branch index
  let seq := repositories.map (fun gitd => findRef gitd ("refs/tags/" ++ tag))
  if seq ≠ [] then .ok (some tag)
  else if index > 0 then .error ()
  else .ok none

/-- `describe_tag.summarise` (multigit.py lines 315-334) on a non-empty
revision list: the change summary for the range. -/
def summarise (tag : String) (revisions : List Rev) : Summary :=
  let authorset := (revisions.map (fun rev => rev.author)).dedup
  let order := List.insertionSort revLE revisions
  let files := (revisions.map (fun rev => rev.files)).flatten
  { when := (order.getLastD defaultRev).commit_time,
    revision := tag,
    author := ", ".intercalate (List.insertionSort strLE authorset),
    files := List.insertionSort strLE files,
    comments := "\n".intercalate (order.map (fun x =>
      String.mk (x.revision.toList.take 8) ++ " " ++ x.author ++ " on " ++ x.gitd ++ " at " ++
        x.date ++ ":\n" ++ x.message)) }

/-- `describe_tag` (multigit.py lines 299-338).  `revsOf gitd tag prev` is
the settled, `silence`-protected result of enriching
`git rev-list tag --not prev` in `gitd` (errors become `[]`).  When the
flattened revision list is empty and `offset + index > 0`, line 319
evaluates the undefined name `format_data`, a `NameError`, modelled as
`Except.error ()`; at `offset + index <= 0` the empty summary is
returned. -/
def describe_tag (findRef : String → String → Option String)
    (revsOf : String → String → Option String → List Rev)
    (tag_format branch : String) (index : Int) (repositories : List String)
    (offset : Int := -1) : Except Unit Summary :=
  let tag := make_tag tag_format branch index
  match find_most_recent_tag findRef repositories tag_format branch (index + offset) with
  | .error e => .error e
  | .ok prev =>
    let revisions := (repositories.map (fun gitd => revsOf gitd tag prev)).flatten
    if revisions = [] then
      if offset + index > 0 then .error ()
      else .ok {}
    else .ok (summarise tag revisions)

/-- `MultiGit.create_tag.store_change` (multigit.py lines 520-528): mutate
the summary before `addChange(**tagdata)`.  `now` is the `time()` call of
line 525. -/
def store_change (now : Int) (project branch : String) (tagdata : Summary) : Summary :=
  { tagdata with project := project, branch := branch, when := now }

/-- `MultiGit.determine_tags` (multigit.py lines 453-466): the sorted list
of branches that get a tag.  `now` is the `time()` call of line 457.  A
branch is added as soon as one of its revisions is old enough. -/
def determine_tags_branches (now ageRequirement : Int) (newrevs : List Rev) : List String :=
  let latest := now - ageRequirement
  let branches := newrevs.foldl
    (fun bs rev => if rev.commit_time ≤ latest then bs.insert rev.branch else bs)
    ([] : List String)
  List.insertionSort strLE branches

/-- Python `os.path.split(p)[1]`: the part of the path after the final
slash. -/
def basename (p : String) : String :=
  String.mk ((p.toList.reverse.takeWhile (fun c => c ≠ '/')).reverse)

/-- The `scan_repositories` filter of `MultiGit.poll` (multigit.py lines
477-480): keep a repository for scanning unless `nonScanBranchesRegexp`
matches the final component of its path.  `nonScanMatch` abstracts
`match(self.nonScanBranchesRegexp, _)` as a predicate. -/
def poll_scan_repositories (nonScanMatch : Option (String → Bool))
    (repositories : List String) : List String :=
  repositories.filter (fun b => !(optMatch nonScanMatch (basename b)))

/-- `assign_revision_to_branches.annotate` (multigit.py lines 215-225):
one output record per branch containing the revision, filtered by
`ignoreBranchesRegexp`.  `branchesContaining gitd rev` is the parsed output
of `git branch --contains rev`; `branchstuff[-1]` is the last word of each
line. -/
def assign_revision_to_branches (branchesContaining : String → String → List (List String))
    (ignoreMatch : Option (String → Bool)) (rev : Rev) : List Rev :=
  let branches := branchesContaining rev.gitd rev.revision
  branches.foldl (fun out branchstuff =>
    let b := branchstuff.getLastD ""
    if optMatch ignoreMatch b then out
    else out ++ [{ rev with branch := b }]) []

/-- `described_untagged_revisions` (multigit.py lines 377-382):
`untaggedOf gitd` is the flattened `rev-list --branches --not --tags`
output, `metaOf gitd rev` the settled `get_metadata` record. -/
def described_untagged_revisions (untaggedOf : String → List String)
    (metaOf : String → String → Rev)
    (branchesContaining : String → String → List (List String))
    (ignoreMatch : Option (String → Bool)) (gitd : String) : List Rev :=
  (((untaggedOf gitd).map (metaOf gitd)).map
    (assign_revision_to_branches branchesContaining ignoreMatch)).flatten

/-- The revision-gathering stage of `MultiGit.poll` (multigit.py lines
489-493): scan the regexp-filtered repository list and flatten. -/
def poll_scanned_revisions (nonScanMatch : Option (String → Bool))
    (ignoreMatch : Option (String → Bool)) (untaggedOf : String → List String)
    (metaOf : String → String → Rev)
    (branchesContaining : String → String → List (List String))
    (repositories : List String) : List Rev :=
  ((poll_scan_repositories nonScanMatch repositories).map
    (described_untagged_revisions untaggedOf metaOf branchesContaining ignoreMatch)).flatten

/-- `MultiGit.find_fresh_tag` (multigit.py lines 437-451) with the mutable
`self.tagStartingIndex` passed explicitly.  Returns the settled result,
the final value of `tagStartingIndex`, and the number of allocation
attempts made (one per call; instrumentation only).  The increment
`self.tagStartingIndex += 1` of line 450 runs synchronously on every call,
before the probe outcome is examined, so the index advances whether or not
the attempt succeeds.  The first `Nat` argument is fuel for the
collision-retry recursion of line 449. -/
def find_fresh_tag (findRef : String → String → Option String)
    (repositories : List String) (tag_format branch : String) :
    Int → Nat → Option (String × Int) × Int × Nat
  | index, 0 => (none, index, 0)
  | index, fuel + 1 =>
    let tag := make_tag tag_format branch index
    let tag_index := index
    let hashes := repositories.map (fun gitd => findRef gitd ("refs/tags/" ++ tag))
    let index2 := index + 1
    if hashes = List.replicate repositories.length none then
      (some (tag, tag_index), index2, 1)
    else
      let r := find_fresh_tag findRef repositories tag_format branch index2 fuel
      (r.1, r.2.1, r.2.2 + 1)

/-- Terminal outcome of `MultiGit.create_tag`. -/
inductive CreateResult where
  | emitted (change : Summary)
  | assertFailed
  | fuelOut
deriving DecidableEq

/-- `MultiGit.create_tag` (multigit.py lines 505-537) for one branch, with
the per-stage effects abstracted to their settled outcomes: `applyOk tag`
is whether the `tag_branch_if_exists` sequencer succeeded, `descRes tag
tag_index` the settled `describe_tag` result, `addOk change` whether
`self.master.addChange` succeeded.  The `again` errback (lines 530-536) is
attached after the apply, describe and store callbacks, so a failure in any
of them re-enters `create_tag`; the assertion of line 512 fires before that
errback chain exists and so propagates.  Returns the terminal outcome, the
final `tagStartingIndex`, and the trace of tags that were applied to the
repositories (instrumentation).  The last `Nat` argument is retry fuel. -/
def create_tag (findRef : String → String → Option String)
    (repositories : List String) (tag_format branch : String)
    (applyOk : String → Bool) (descRes : String → Int → Except Unit Summary)
    (addOk : Summary → Bool) (now : Int) (project : String) (allocFuel : Nat) :
    Int → Nat → CreateResult × Int × List (String × Int)
  | index, 0 => (.fuelOut, index, [])
  | index, fuel + 1 =>
    let a := find_fresh_tag findRef repositories tag_format branch index allocFuel
    match a.1 with
    | none => (.fuelOut, a.2.1, [])
    | some (tag, tag_index) =>
      if ¬ hasSeg (toString tag_index).toList tag.toList then (.assertFailed, a.2.1, [])
      else if ¬ applyOk tag then
        create_tag findRef repositories tag_format branch applyOk descRes addOk
          now project allocFuel a.2.1 fuel
      else
        match descRes tag tag_index with
        | .error _ =>
          let r := create_tag findRef repositories tag_format branch applyOk descRes addOk
            now project allocFuel a.2.1 fuel
          (r.1, r.2.1, (tag, tag_index) :: r.2.2)
        | .ok tagdata =>
          let emitted := store_change now project branch tagdata
          if addOk emitted then (.emitted emitted, a.2.1, [(tag, tag_index)])
          else
            let r := create_tag findRef repositories tag_format branch applyOk descRes addOk
              now project allocFuel a.2.1 fuel
            (r.1, r.2.1, (tag, tag_index) :: r.2.2)

/-- Whether a directory entry qualifies as a repository in
`scan_for_repositories` (multigit.py lines 359-362). -/
def repo_dir_ok (isdir isfile : String → Bool) (pathname : String) : Bool :=
  (isfile (pathname ++ "/config") && isdir (pathname ++ "/refs")) ||
  (isfile (pathname ++ "/.git/config") && isdir (pathname ++ "/.git/refs"))

/-- `scan_for_repositories` (multigit.py lines 349-364).  `entries` is the
`listdir` result in the order the operating system returned it; `isdir`
and `isfile` abstract the filesystem; `ignoreMatch` abstracts
`match(ignoreRepositoriesRegexp, _)`. -/
def scan_for_repositories (isdir isfile : String → Bool)
    (ignoreMatch : Option (String → Bool)) (repositories_directory : String)
    (entries : List String) : List String :=
  entries.foldl (fun seq item =>
    if optMatch ignoreMatch item then seq
    else
      let pathname := repositories_directory ++ "/" ++ item
      if !(isdir pathname) then seq
      else if repo_dir_ok isdir isfile pathname then seq ++ [pathname]
      else seq) []

/-- Whether `x` is the maximum of the integer list `l`. -/
def IsMaxOf (x : Int) (l : List Int) : Prop :=
  x ∈ l ∧ ∀ y ∈ l, y ≤ x

instance (x : Int) (l : List Int) : Decidable (IsMaxOf x l) :=
  inferInstanceAs (Decidable (_ ∧ _))

/-! Helper lemmas. -/

theorem mem_getLastD {α : Type} : ∀ (l : List α) (d : α), l ≠ [] → l.getLastD d ∈ l
  | [], _, h => absurd rfl h
  | [a], _, _ => List.mem_singleton.mpr rfl
  | a :: b :: t, d, _ => by
    rw [List.getLastD_cons]
    exact List.mem_cons_of_mem a (mem_getLastD (b :: t) a (by simp))

theorem sorted_rel_getLastD : ∀ (l : List Rev) (d : Rev), l.Sorted revLE →
    ∀ x ∈ l, revLE x (l.getLastD d)
  | [], _, _, x, hx => absurd hx (List.not_mem_nil x)
  | [a], _, _, x, hx => by
    rcases List.mem_singleton.mp hx with rfl
    exact Int.le_refl _
  | a :: b :: t, d, hs, x, hx => by
    rw [List.getLastD_cons]
    rcases List.mem_cons.mp hx with h1 | hx2
    · rw [h1]
      exact List.rel_of_sorted_cons hs _ (mem_getLastD (b :: t) a (by simp))
    · exact sorted_rel_getLastD (b :: t) a hs.of_cons x hx2

theorem summarise_when_isMax (tag : String) (revs : List Rev) (h : revs ≠ []) :
    IsMaxOf (summarise tag revs).when (revs.map (fun r => r.commit_time)) := by
  have hwhen : (summarise tag revs).when =
      ((List.insertionSort revLE revs).getLastD defaultRev).commit_time := rfl
  have hne : List.insertionSort revLE revs ≠ [] := by
    intro hnil
    have := List.length_insertionSort revLE revs
    rw [hnil] at this
    exact h (List.length_eq_zero.mp this.symm)
  have hsorted : (List.insertionSort revLE revs).Sorted revLE :=
    List.sorted_insertionSort revLE revs
  have hlast : (List.insertionSort revLE revs).getLastD defaultRev ∈ revs :=
    (List.mem_insertionSort revLE).mp (mem_getLastD _ defaultRev hne)
  constructor
  · rw [hwhen]
    exact List.mem_map.mpr ⟨_, hlast, rfl⟩
  · intro y hy
    rcases List.mem_map.mp hy with ⟨r, hr, rfl⟩
    rw [hwhen]
    exact sorted_rel_getLastD _ defaultRev hsorted r ((List.mem_insertionSort revLE).mpr hr)

theorem lp_tick_of_le {E A : Type} (n : Nat) (hn : 1 ≤ n) :
    ∀ (fuel : Nat) (l : List (Except E A)), l.length ≤ fuel → lp_tick E A n fuel l = l := by
  intro fuel
  induction fuel with
  | zero =>
    intro l h
    rw [List.length_eq_zero.mp (Nat.le_zero.mp h)]
    rfl
  | succ fuel ih =>
    intro l h
    cases l with
    | nil => rfl
    | cons a t =>
      show (a :: t).take n ++ lp_tick E A n fuel ((a :: t).drop n) = a :: t
      rw [ih ((a :: t).drop n) (by rw [List.length_drop]; simp at h ⊢; omega)]
      exact List.take_append_drop n (a :: t)

theorem check_list_spec {E A : Type} : ∀ (l : List (Except E A)),
    check_list l = (match firstError l with
                    | some e => Except.error e
                    | none => Except.ok (okValues l))
  | [] => rfl
  | .error _ :: _ => rfl
  | .ok v :: t => by
    show (check_list t).map (fun l => v :: l) = _
    rw [check_list_spec t]
    cases h : firstError (Except.ok v :: t) with
    | some e =>
      have : firstError t = some e := h
      rw [this]
      rfl
    | none =>
      have : firstError t = none := h
      rw [this]
      rfl

theorem mem_determine_fold (latest : Int) :
    ∀ (revs : List Rev) (acc : List String) (b : String),
      b ∈ revs.foldl
            (fun bs rev => if rev.commit_time ≤ latest then bs.insert rev.branch else bs) acc ↔
        b ∈ acc ∨ ∃ rev ∈ revs, rev.branch = b ∧ rev.commit_time ≤ latest := by
  intro revs
  induction revs with
  | nil => intro acc b; simp
  | cons r t ih =>
    intro acc b
    rw [List.foldl_cons, ih]
    by_cases h : r.commit_time ≤ latest
    · simp only [if_pos h, List.mem_insert_iff, List.mem_cons]
      constructor
      · rintro (⟨rfl | hacc⟩ | ⟨rev, hrev, hb, hold⟩)
        · exact Or.inr ⟨r, Or.inl rfl, rfl, h⟩
        · exact Or.inl hacc
        · exact Or.inr ⟨rev, Or.inr hrev, hb, hold⟩
      · rintro (hacc | ⟨rev, rfl | hrev, hb, hold⟩)
        · exact Or.inl (Or.inr hacc)
        · exact Or.inl (Or.inl hb.symm)
        · exact Or.inr ⟨rev, hrev, hb, hold⟩
    · simp only [if_neg h, List.mem_cons]
      constructor
      · rintro (hacc | ⟨rev, hrev, hb, hold⟩)
        · exact Or.inl hacc
        · exact Or.inr ⟨rev, Or.inr hrev, hb, hold⟩
      · rintro (hacc | ⟨rev, rfl | hrev, hb, hold⟩)
        · exact Or.inl hacc
        · exact absurd hold h
        · exact Or.inr ⟨rev, hrev, hb, hold⟩

theorem foldl_keep {α β : Type} (f : List β → α → List β) (keep : α → Bool) (g : α → β)
    (hf : ∀ seq item, f seq item = if keep item then seq ++ [g item] else seq) :
    ∀ (l : List α) (acc : List β), l.foldl f acc = acc ++ (l.filter keep).map g := by
  intro l
  induction l with
  | nil => intro acc; simp
  | cons e t ih =>
    intro acc
    rw [List.foldl_cons, hf, List.filter_cons]
    cases hk : keep e with
    | true => rw [if_pos rfl, ih, if_pos rfl]; simp
    | false => rw [if_neg Bool.false_ne_true, ih, if_neg Bool.false_ne_true]

theorem getD_append_cons {α : Type} : ∀ (l₁ : List α) (x : α) (l₂ : List α) (d : α),
    (l₁ ++ x :: l₂).getD l₁.length d = x
  | [], _, _, _ => rfl
  | a :: t, x, l₂, d => by
    show (a :: (t ++ x :: l₂)).getD (t.length + 1) d = x
    rw [List.getD_cons_succ]
    exact getD_append_cons t x l₂ d

theorem stripLeadingWs_append_newline : ∀ (l₁ l₂ : List Char),
    stripLeadingWs (l₁ ++ '\n' :: l₂) = stripLeadingWs l₁ ++ '\n' :: l₂
  | [], l₂ => by simp [stripLeadingWs]
  | c :: t, l₂ => by
    show stripLeadingWs (c :: (t ++ '\n' :: l₂)) = stripLeadingWs (c :: t) ++ '\n' :: l₂
    by_cases h : c = ' ' ∨ c = '\t'
    · rw [stripLeadingWs, if_pos h, stripLeadingWs, if_pos h]
      exact stripLeadingWs_append_newline t l₂
    · rw [stripLeadingWs, if_neg h, stripLeadingWs, if_neg h]
      rfl

theorem stripLeadingWs_eq_dropWhile : ∀ (l : List Char),
    stripLeadingWs l = l.dropWhile (fun c => c == ' ' || c == '\t')
  | [] => rfl
  | c :: t => by
    rw [stripLeadingWs, List.dropWhile_cons]
    by_cases h : c = ' ' ∨ c = '\t'
    · rw [if_pos h, if_pos (by simpa using h)]
      exact stripLeadingWs_eq_dropWhile t
    · rw [if_neg h, if_neg (by simpa using h)]

theorem stripLeadingWs_cons_of_neg {c : Char} (l : List Char) (h : ¬ (c = ' ' ∨ c = '\t')) :
    stripLeadingWs (c :: l) = c :: l := by
  rw [stripLeadingWs, if_neg h]

theorem stripLeadingWs_space (l : List Char) : stripLeadingWs (' ' :: l) = stripLeadingWs l := by
  rw [stripLeadingWs, if_pos (Or.inl rfl)]

theorem stripLeadingWs_replicate_x (k : Nat) (r : List Char) :
    stripLeadingWs (List.replicate (k + 1) 'x' ++ r) = List.replicate (k + 1) 'x' ++ r := by
  rw [List.replicate_succ, List.cons_append]
  exact stripLeadingWs_cons_of_neg _ (by decide)

/-- The body extraction and truncation of `message_of_lines` for a header
line, a blank line and a single non-empty body line. -/
theorem message_of_lines_single (s : String) (hs : (s = "") = False) :
    message_of_lines ["h", "", s] =
      String.mk (stripLeadingWs
        (if (s.toList.length > 4000) then s.toList.take 4000 ++ "...".toList else s.toList)) := by
  unfold message_of_lines
  have h1 : ["h", "", s].dropWhile (fun l => l ≠ "") = ["", s] := by
    rw [List.dropWhile_cons, if_pos (by simp), List.dropWhile_cons, if_neg (by simp)]
  have h2 : ([("" : String), s].drop 1).takeWhile (fun l => l ≠ "") = [s] := by
    rw [List.drop_one, List.tail_cons, List.takeWhile_cons, if_pos (by simp [hs])]
    rfl
  simp only [h1, h2]
  rfl

/-- Same shape for the claim-side `message_claimed`. -/
theorem message_claimed_single (s : String) (hs : (s = "") = False) :
    message_claimed ["h", "", s] =
      String.mk
        (if ((stripLeadingWs s.toList).length > 4000)
         then (stripLeadingWs s.toList).take 4000 ++ "...".toList
         else stripLeadingWs s.toList) := by
  unfold message_claimed
  have h1 : ["h", "", s].dropWhile (fun l => l ≠ "") = ["", s] := by
    rw [List.dropWhile_cons, if_pos (by simp), List.dropWhile_cons, if_neg (by simp)]
  have h2 : ([("" : String), s].drop 1).takeWhile (fun l => l ≠ "") = [s] := by
    rw [List.drop_one, List.tail_cons, List.takeWhile_cons, if_pos (by simp [hs])]
    rfl
  simp only [h1, h2]
  rfl

/-- On the 4001-character body line made of a space and 4000 `x`s, the
source truncates (pre-strip length 4001) and then strips, yielding 3999
`x`s plus `...`; the claim wording strips first, yielding 4000 `x`s and no
truncation.  The two outputs differ. -/
theorem message_trunc_order_ne :
    message_of_lines ["h", "", String.mk (' ' :: List.replicate 4000 'x')] ≠
      message_claimed ["h", "", String.mk (' ' :: List.replicate 4000 'x')] := by
  have hbig : (String.mk (' ' :: List.replicate 4000 'x')).length = 4001 := by
    show (' ' :: List.replicate 4000 'x').length = 4001
    rw [List.length_cons, List.length_replicate]
  have hs : ((String.mk (' ' :: List.replicate 4000 'x') : String) = "") = False := by
    simp only [eq_iff_iff, iff_false]
    intro h
    have hl := congrArg String.length h
    rw [hbig] at hl
    exact absurd hl (by decide)
  have htl : (String.mk (' ' :: List.replicate 4000 'x')).toList =
      ' ' :: List.replicate 4000 'x' := rfl
  have hlen : (' ' :: List.replicate 4000 'x').length = 4001 := by
    rw [List.length_cons, List.length_replicate]
  have htake : (' ' :: List.replicate 4000 'x').take 4000 = ' ' :: List.replicate 3999 'x' := by
    rw [List.take_succ_cons, List.take_replicate]
    rfl
  have hsource : message_of_lines ["h", "", String.mk (' ' :: List.replicate 4000 'x')] =
      String.mk (List.replicate 3999 'x' ++ "...".toList) := by
    rw [message_of_lines_single _ hs, htl, hlen, if_pos (by omega), htake, List.cons_append,
      stripLeadingWs_space]
    rw [show (3999 : Nat) = 3998 + 1 from rfl, stripLeadingWs_replicate_x]
  have hclaimed : message_claimed ["h", "", String.mk (' ' :: List.replicate 4000 'x')] =
      String.mk (List.replicate 4000 'x') := by
    rw [message_claimed_single _ hs, htl, stripLeadingWs_space]
    rw [show (4000 : Nat) = 3999 + 1 from rfl,
      show (List.replicate (3999 + 1) 'x' : List Char) =
        List.replicate (3999 + 1) 'x' ++ [] from (List.append_nil _).symm,
      stripLeadingWs_replicate_x]
    rw [List.append_nil]
    rw [if_neg (by rw [List.length_replicate]; decide)]
  rw [hsource, hclaimed]
  intro h
  have hl := congrArg String.length h
  rw [show (String.mk (List.replicate 3999 'x' ++ "...".toList)).length = 4002 from by
        show (List.replicate 3999 'x' ++ "...".toList).length = 4002
        rw [List.length_append, List.length_replicate]
        rfl,
      show (String.mk (List.replicate 4000 'x')).length = 4000 from by
        show (List.replicate 4000 'x').length = 4000
        rw [List.length_replicate]] at hl
  exact absurd hl (by decide)

/-!  Claims. -/

/-- C6: for a revision whose `git show` output carries a `Date:` line, the
computed `commit_time` is the library conversion of the date with the zone
suffix removed, plus the zone offset taken from the last five characters
`sg h1 h2 m1 m2` with its sign inverted: a `+HHMM` offset is subtracted and
any other sign, in particular `-HHMM`, is added. -/
theorem C6_commit_time_offset_sign_inverted
    (conv : String → Int) (p : List Char) (sg h1 h2 m1 m2 : Char) :
    commit_time_of conv (p ++ [' ', sg, h1, h2, m1, m2]) =
      conv (String.mk p) +
        (if sg = '+'
         then -(((3600 * ((h1.toNat - 48) * 10 + (h2.toNat - 48)) +
                 60 * ((m1.toNat - 48) * 10 + (m2.toNat - 48)) : Nat) : Int))
         else ((3600 * ((h1.toNat - 48) * 10 + (h2.toNat - 48)) +
                 60 * ((m1.toNat - 48) * 10 + (m2.toNat - 48)) : Nat) : Int)) := by
  have hlen : (p ++ [' ', sg, h1, h2, m1, m2]).length = p.length + 6 := by simp
  have hsplit2 : p ++ [' ', sg, h1, h2, m1, m2] = (p ++ [' ', sg]) ++ [h1, h2, m1, m2] := by
    simp
  have hsplit4 : p ++ [' ', sg, h1, h2, m1, m2] = (p ++ [' ', sg, h1, h2]) ++ [m1, m2] := by
    simp
  have hsplit1 : p ++ [' ', sg, h1, h2, m1, m2] = (p ++ [' ']) ++ sg :: [h1, h2, m1, m2] := by
    simp
  have hdrop4 : (p ++ [' ', sg, h1, h2, m1, m2]).drop (p.length + 2) = [h1, h2, m1, m2] := by
    rw [hsplit2]
    have : p.length + 2 = (p ++ [' ', sg]).length := by simp
    rw [this, List.drop_left]
  have hdrop2 : (p ++ [' ', sg, h1, h2, m1, m2]).drop (p.length + 4) = [m1, m2] := by
    rw [hsplit4]
    have : p.length + 4 = (p ++ [' ', sg, h1, h2]).length := by simp
    rw [this, List.drop_left]
  have htake : (p ++ [' ', sg, h1, h2, m1, m2]).take p.length = p := List.take_left p _
  have hsign : (p ++ [' ', sg, h1, h2, m1, m2]).getD (p.length + 1) ' ' = sg := by
    rw [hsplit1]
    have : p.length + 1 = (p ++ [' ']).length := by simp
    rw [this]
    exact getD_append_cons (p ++ [' ']) sg [h1, h2, m1, m2] ' '
  show (let n := (p ++ [' ', sg, h1, h2, m1, m2]).length
        let hours := digitsToNat (((p ++ [' ', sg, h1, h2, m1, m2]).drop (n - 4)).take 2)
        let minutes := digitsToNat ((p ++ [' ', sg, h1, h2, m1, m2]).drop (n - 2))
        let magn : Int := ((3600 * hours + 60 * minutes : Nat) : Int)
        let sign := (p ++ [' ', sg, h1, h2, m1, m2]).getD (n - 5) ' '
        let tzoffset : Int := if sign = '+' then -magn else magn
        conv (String.mk ((p ++ [' ', sg, h1, h2, m1, m2]).take (n - 6))) + tzoffset) = _
  simp only [hlen]
  have h4 : p.length + 6 - 4 = p.length + 2 := by omega
  have h2 : p.length + 6 - 2 = p.length + 4 := by omega
  have h5 : p.length + 6 - 5 = p.length + 1 := by omega
  have h6 : p.length + 6 - 6 = p.length := by omega
  rw [h4, h2, h5, h6, hdrop4, hdrop2, htake, hsign]
  simp only [List.take_succ_cons, List.take_zero, digitsToNat, List.foldl_cons, List.foldl_nil,
    Nat.zero_mul, Nat.zero_add]

/-- C7 fails as stated: the source strips leading whitespace only from the
start of the joined message, so a second body line keeps its indentation
where the claim demands it stripped; and the 4000-character truncation is
applied to the not-yet-stripped message, so a 4001-character body whose
first character is a space is truncated by the source although its
stripped form is exactly 4000 characters.  `message_claimed` renders the
claim wording; both inputs below separate it from `message_of_lines`. -/
theorem C7_counterexample :
    message_of_lines ["commit abc", "", "  a", "  b", ""] = "a\n  b"
    ∧ message_claimed ["commit abc", "", "  a", "  b", ""] = "a\nb"
    ∧ ("a\n  b" : String) ≠ "a\nb"
    ∧ message_of_lines ["h", "", String.mk (' ' :: List.replicate 4000 'x')] ≠
        message_claimed ["h", "", String.mk (' ' :: List.replicate 4000 'x')] :=
  ⟨rfl, rfl, by decide, message_trunc_order_ne⟩

/-- C7 amended: leading spaces and tabs are stripped only from the start of
the whole message — the strip never crosses a newline, so every line after
the first keeps its prefix — and the truncation to 4000 characters with a
`...` suffix is decided on the pre-strip message and applied before the
strip. -/
theorem C7_strip_head_only_after_truncation :
    (∀ (l₁ l₂ : List Char),
        stripLeadingWs (l₁ ++ '\n' :: l₂) = stripLeadingWs l₁ ++ '\n' :: l₂)
    ∧ (∀ (l : List Char), stripLeadingWs l = l.dropWhile (fun c => c == ' ' || c == '\t'))
    ∧ (∀ (out : List String),
        message_of_lines out =
          String.mk (stripLeadingWs
            (let body := ((out.dropWhile (fun l => l ≠ "")).drop 1).takeWhile (fun l => l ≠ "")
             let m := joinLines body
             if m.length > 4000 then m.take 4000 ++ "...".toList else m))) :=
  ⟨stripLeadingWs_append_newline, stripLeadingWs_eq_dropWhile, fun _ => rfl⟩

/-- C3 fails against the source: with one repository and no tag present
anywhere (`findRef` constantly `none`), `find_most_recent_tag` at index 4
still answers `master-4`, because line 283 tests only that the
per-repository result list is non-empty, never that any entry is a hit;
and describing an initial tag at index 5 (empty revision range everywhere)
does not bottom out with the empty summary but evaluates the undefined
name `format_data` (line 319), a `NameError`, modelled as
`Except.error ()`. -/
theorem C3_divergence :
    find_most_recent_tag (fun _ _ => none) ["r"] "BRANCH-INDEX" "master" 4 =
        Except.ok (some "master-4")
    ∧ describe_tag (fun _ _ => none) (fun _ _ _ => []) "BRANCH-INDEX" "master" 5 ["r"] (-1) =
        Except.error () :=
  ⟨rfl, rfl⟩

/-- C4 fails as stated: a branch whose newest untagged revision is younger
than the age requirement is still selected for tagging as soon as one
older revision exists on it.  Here `now = 50`, `age_requirement = 10`;
branch `b` carries revisions at times 0 and 100; the newest (100) is not
at least 10 seconds old, yet `determine_tags` selects `b`. -/
theorem C4_counterexample :
    determine_tags_branches 50 10
        [{ branch := "b", commit_time := 0 }, { branch := "b", commit_time := 100 }] = ["b"]
    ∧ ¬ ((100 : Int) ≤ 50 - 10) :=
  ⟨rfl, by decide⟩

/-- C4 amended: a branch is selected for tagging in a poll cycle iff some
untagged revision on it is at least `age_requirement` seconds older than
the wall clock sampled by `determine_tags`; in particular a revision
younger than that never itself causes the selection, but it does not shield
its branch when an older revision qualifies. -/
theorem C4_branch_selected_iff_some_old_revision
    (now age : Int) (newrevs : List Rev) (b : String) :
    b ∈ determine_tags_branches now age newrevs ↔
      ∃ rev ∈ newrevs, rev.branch = b ∧ rev.commit_time ≤ now - age := by
  unfold determine_tags_branches
  rw [List.mem_insertionSort, mem_determine_fold]
  simp

/-- C5 fails against the source: `poll` filters the repository list, not
the branch list, against `nonScanBranchesRegexp` (lines 477-480 match the
regexp against the final path component of each repository).  With the
regexp matching `skipme`: a repository directory named `skipme` is dropped
from scanning entirely, while in repository `alpha` the branch `skipme` is
scanned like any other — its untagged revision comes back attributed to
branch `skipme` — contradicting the claim that such branches are not
scanned. -/
theorem C5_divergence :
    poll_scan_repositories (some (fun s => s == "skipme")) ["/r/alpha", "/r/skipme"] =
        ["/r/alpha"]
    ∧ (poll_scanned_revisions (some (fun s => s == "skipme")) none
          (fun _ => ["deadbeef"]) (fun g r => { revision := r, gitd := g })
          (fun _ _ => [["*", "skipme"]]) ["/r/alpha", "/r/skipme"]).map (fun r => r.branch) =
        ["skipme"] :=
  ⟨rfl, rfl⟩

/-- C9 fails as stated: the scanner emits qualifying entries in the order
`listdir` returned them and never sorts; with directory order `b`, `a` the
result is not sorted.  (The sorted order the spec relies on is established
by `poll`, which wraps the scan in `list(sorted(...))`.) -/
theorem C9_counterexample :
    scan_for_repositories (fun _ => true) (fun _ => true) none "/r" ["b", "a"] =
        ["/r/b", "/r/a"]
    ∧ ¬ List.Sorted strLE ["/r/b", "/r/a"] := by
  refine ⟨rfl, fun h => ?_⟩
  have h1 : strLE "/r/b" "/r/a" := List.rel_of_sorted_cons h _ (by simp)
  have h2 : ¬ ("/r/b" ≤ "/r/a") := by
    rw [String.le_iff_toList_le]; decide
  exact h2 h1

/-- C9 amended: the scanner returns, in `listdir` order, exactly the direct
children that are not ignored, are directories, and hold either
`config` plus `refs` or `.git/config` plus `.git/refs`, each joined to the
roots directory; sorting happens later, in `poll`. -/
theorem C9_scan_filter_in_listdir_order
    (isdir isfile : String → Bool) (ignoreMatch : Option (String → Bool))
    (dir : String) (entries : List String) :
    scan_for_repositories isdir isfile ignoreMatch dir entries =
      (entries.filter (fun item =>
          !(optMatch ignoreMatch item) &&
          (isdir (dir ++ "/" ++ item) &&
           repo_dir_ok isdir isfile (dir ++ "/" ++ item)))).map
        (fun item => dir ++ "/" ++ item) := by
  unfold scan_for_repositories
  refine (foldl_keep
    (fun seq item =>
      if optMatch ignoreMatch item then seq
      else
        let pathname := dir ++ "/" ++ item
        if !(isdir pathname) then seq
        else if repo_dir_ok isdir isfile pathname then seq ++ [pathname]
        else seq)
    (fun item =>
      !(optMatch ignoreMatch item) &&
      (isdir (dir ++ "/" ++ item) && repo_dir_ok isdir isfile (dir ++ "/" ++ item)))
    (fun item => dir ++ "/" ++ item) ?_ entries []).trans (by simp)
  intro seq item
  cases hm : optMatch ignoreMatch item with
  | true => simp [hm]
  | false =>
    cases hd : isdir (dir ++ "/" ++ item) with
    | false => simp [hm, hd]
    | true =>
      cases hk : repo_dir_ok isdir isfile (dir ++ "/" ++ item) with
      | false => simp [hm, hd, hk]
      | true => simp [hm, hd, hk]

/-- C1 fails against the source: `summarise` does set `when` to the latest
commit time of the range, but `store_change` (line 525) overwrites `when`
with `time()` just before `addChange`, so the record emitted to the sink
carries the emission wall-clock time.  With range revisions at commit times
10 and 20 and emission time 999, the emitted `when` is 999, not 20. -/
theorem C1_counterexample :
    (store_change 999 "p" "b"
        (summarise "t" [{ commit_time := 10 }, { commit_time := 20 }])).when = 999
    ∧ (summarise "t" [{ commit_time := 10 }, { commit_time := 20 }]).when = 20
    ∧ ((999 : Int) ≠ 20) :=
  ⟨rfl, rfl, by decide⟩

/-- C1 amended: the describer summary carries `when` equal to the maximum
commit time over the revisions of the range, but `store_change` overwrites
`when` with the wall-clock emission time before the record reaches the
sink, so the emitted record carries the emission time in `when`. -/
theorem C1_when_overwritten_at_emission :
    (∀ (now : Int) (project branch : String) (tagdata : Summary),
        (store_change now project branch tagdata).when = now)
    ∧ (∀ (tag : String) (revs : List Rev), revs ≠ [] →
        IsMaxOf (summarise tag revs).when (revs.map (fun r => r.commit_time))) :=
  ⟨fun _ _ _ _ => rfl, fun tag revs h => summarise_when_isMax tag revs h⟩

/-- Witness: `C1_when_overwritten_at_emission` applied at a concrete
summary and a concrete two-revision range. -/
theorem C1_witness :
    (store_change 7 "pp" "bb" { when := 5 }).when = 7
    ∧ IsMaxOf (summarise "tt" [{ commit_time := 3 }, { commit_time := 11 }]).when
        (([{ commit_time := 3 }, { commit_time := 11 }] : List Rev).map
          (fun r => r.commit_time)) :=
  ⟨C1_when_overwritten_at_emission.1 7 "pp" "bb" { when := 5 },
   C1_when_overwritten_at_emission.2 "tt"
     [{ commit_time := 3 }, { commit_time := 11 }] (List.cons_ne_nil _ _)⟩

/-- C2 fails as stated: a `DeferredList` built with `consumeErrors=True`
always calls back, so `ListProcessor.record` issues every chunk whatever
the earlier statuses were.  With chunk width 2 and the second item failing,
the third item — which lies after the chunk of the first failing item — is still
started and its settled outcome is recorded in the processor output; only
`check_list` then discards the completed results and raises the first
error. -/
theorem C2_counterexample :
    (lp_tick String Nat 2 3 [Except.ok 0, Except.error "boom", Except.ok 1]).drop 2 =
        [Except.ok 1]
    ∧ sequencer_model [Except.ok 0, Except.error "boom", Except.ok 1] 2 =
        Except.error "boom" :=
  ⟨rfl, rfl⟩

/-- C2 amended: the sequencer starts every item — all chunks are issued
even after a failure; once all items settle, the first error in input order
is surfaced to the caller and the results of items that completed are
discarded; when no item fails the result list is in input order. -/
theorem C2_all_chunks_run_first_error_surfaced
    (E A : Type) (items : List (Except E A)) (n : Nat) (hn : 1 ≤ n) :
    lp_tick E A n items.length items = items
    ∧ sequencer_model items n =
        (match firstError items with
         | some e => Except.error e
         | none => Except.ok (okValues items)) := by
  refine ⟨lp_tick_of_le n hn items.length items (le_refl _), ?_⟩
  unfold sequencer_model
  rw [lp_tick_of_le n hn items.length items (le_refl _), check_list_spec]

/-- Witness: `C2_all_chunks_run_first_error_surfaced` at width 2 on a
three-item list whose middle item fails. -/
theorem C2_witness :
    lp_tick String Nat 2 3 [Except.ok 4, Except.error "bad", Except.ok 6] =
        [Except.ok 4, Except.error "bad", Except.ok 6]
    ∧ sequencer_model [Except.ok 4, Except.error "bad", Except.ok 6] 2 =
        Except.error "bad" := by
  have h := C2_all_chunks_run_first_error_surfaced String Nat
    [Except.ok 4, Except.error "bad", Except.ok 6] 2 (by decide)
  exact ⟨h.1, h.2⟩

theorem find_fresh_tag_final (findRef : String → String → Option String)
    (repositories : List String) (tag_format branch : String) :
    ∀ (fuel : Nat) (i : Int),
      (find_fresh_tag findRef repositories tag_format branch i fuel).2.1 =
        i + ((find_fresh_tag findRef repositories tag_format branch i fuel).2.2 : Int) := by
  intro fuel
  induction fuel with
  | zero => intro i; simp [find_fresh_tag]
  | succ fuel ih =>
    intro i
    simp only [find_fresh_tag]
    by_cases h : (repositories.map (fun gitd =>
        findRef gitd ("refs/tags/" ++ make_tag tag_format branch i))) =
        List.replicate repositories.length none
    · rw [if_pos h]
      dsimp only
      push_cast
      ring
    · rw [if_neg h]
      dsimp only
      rw [ih (i + 1)]
      push_cast
      ring

/-- C8: within `find_fresh_tag`, the only mutation of `tagStartingIndex` in
the source, the counter leaves every call no smaller than it entered (so it
is non-decreasing over the orchestrator lifetime), and it is advanced by
exactly one per allocation attempt, successful or not: the final value is
the initial value plus the number of attempts made. -/
theorem C8_index_monotone_advanced_every_attempt
    (findRef : String → String → Option String) (repositories : List String)
    (tag_format branch : String) (i : Int) (fuel : Nat) :
    (find_fresh_tag findRef repositories tag_format branch i fuel).2.1 =
      i + ((find_fresh_tag findRef repositories tag_format branch i fuel).2.2 : Int)
    ∧ i ≤ (find_fresh_tag findRef repositories tag_format branch i fuel).2.1 := by
  refine ⟨find_fresh_tag_final findRef repositories tag_format branch fuel i, ?_⟩
  rw [find_fresh_tag_final findRef repositories tag_format branch fuel i]
  have h := Int.natCast_nonneg
    ((find_fresh_tag findRef repositories tag_format branch i fuel).2.2)
  omega

theorem find_fresh_tag_success (findRef : String → String → Option String)
    (repositories : List String) (tag_format branch : String) :
    ∀ (fuel : Nat) (i : Int) (tag : String) (j : Int),
      (find_fresh_tag findRef repositories tag_format branch i fuel).1 = some (tag, j) →
      i ≤ j ∧ (find_fresh_tag findRef repositories tag_format branch i fuel).2.1 = j + 1 := by
  intro fuel
  induction fuel with
  | zero => intro i tag j h; exact absurd h (by simp [find_fresh_tag])
  | succ fuel ih =>
    intro i tag j h
    simp only [find_fresh_tag] at h ⊢
    by_cases hc : (repositories.map (fun gitd =>
        findRef gitd ("refs/tags/" ++ make_tag tag_format branch i))) =
        List.replicate repositories.length none
    · rw [if_pos hc] at h ⊢
      dsimp only at h ⊢
      simp only [Option.some.injEq, Prod.mk.injEq] at h
      rcases h with ⟨_, h2⟩
      subst h2
      exact ⟨le_refl _, rfl⟩
    · rw [if_neg hc] at h ⊢
      dsimp only at h ⊢
      have := ih (i + 1) tag j h
      exact ⟨by omega, this.2⟩

theorem create_tag_trace_ge (findRef : String → String → Option String)
    (repositories : List String) (tag_format branch : String)
    (applyOk : String → Bool) (descRes : String → Int → Except Unit Summary)
    (addOk : Summary → Bool) (now : Int) (project : String) (allocFuel : Nat) :
    ∀ (fuel : Nat) (i : Int) (t : String) (j : Int),
      (t, j) ∈ (create_tag findRef repositories tag_format branch applyOk descRes addOk
        now project allocFuel i fuel).2.2 → i ≤ j := by
  intro fuel
  induction fuel with
  | zero => intro i t j hmem; exact absurd hmem (by simp [create_tag])
  | succ fuel ih =>
    intro i t j hmem
    simp only [create_tag] at hmem
    rcases ha : (find_fresh_tag findRef repositories tag_format branch i allocFuel).1
      with _ | ⟨tag, ti⟩
    · simp only [ha] at hmem
      exact absurd hmem (List.not_mem_nil _)
    · simp only [ha] at hmem
      have hfin := find_fresh_tag_success findRef repositories tag_format branch
        allocFuel i tag ti ha
      by_cases hseg : hasSeg (toString ti).toList tag.toList
      · rw [if_neg (by simpa using hseg)] at hmem
        by_cases happ : applyOk tag
        · rw [if_neg (by simpa using happ)] at hmem
          rcases hdesc : descRes tag ti with e | s
          · simp only [hdesc] at hmem
            rcases List.mem_cons.mp hmem with heq | hrec
            · rcases Prod.mk.injEq .. |>.mp heq with ⟨_, rfl⟩
              exact hfin.1
            · have := ih _ t j hrec
              rw [hfin.2] at this
              omega
          · simp only [hdesc] at hmem
            by_cases hadd : addOk (store_change now project branch s)
            · rw [if_pos hadd] at hmem
              rcases List.mem_singleton.mp hmem with heq
              rcases Prod.mk.injEq .. |>.mp heq with ⟨_, rfl⟩
              exact hfin.1
            · rw [if_neg hadd] at hmem
              rcases List.mem_cons.mp hmem with heq | hrec
              · rcases Prod.mk.injEq .. |>.mp heq with ⟨_, rfl⟩
                exact hfin.1
              · have := ih _ t j hrec
                rw [hfin.2] at this
                omega
        · rw [if_pos (by simpa using happ)] at hmem
          have := ih _ t j hmem
          rw [hfin.2] at this
          omega
      · rw [if_pos (by simpa using hseg)] at hmem
        exact absurd hmem (List.not_mem_nil _)

/-- C10: the `again` errback of `create_tag` is attached after the apply,
describe and store callbacks, so a failure of `describe_tag` or of the
`addChange` on the sink raised after the tag was already applied re-enters
allocation for the same branch: the result of the cycle is the retry run
started at index `ti + 1`, the applied tag `(tag, ti)` stays applied (it
heads the applied-tag trace), and every tag the retry applies carries a
strictly higher index.  Retry is not restricted to failures of the
`git tag` command itself. -/
theorem C10_retry_covers_describe_and_store
    (findRef : String → String → Option String) (repositories : List String)
    (tag_format branch : String) (applyOk : String → Bool)
    (descRes : String → Int → Except Unit Summary) (addOk : Summary → Bool)
    (now : Int) (project : String) (allocFuel : Nat) (i : Int) (fuel : Nat)
    (tag : String) (ti : Int)
    (halloc : (find_fresh_tag findRef repositories tag_format branch i allocFuel).1 =
      some (tag, ti))
    (hassert : hasSeg (toString ti).toList tag.toList = true)
    (happly : applyOk tag = true)
    (hfail : descRes tag ti = Except.error () ∨
      (∃ s, descRes tag ti = Except.ok s ∧
        addOk (store_change now project branch s) = false)) :
    create_tag findRef repositories tag_format branch applyOk descRes addOk
        now project allocFuel i (fuel + 1) =
      ((create_tag findRef repositories tag_format branch applyOk descRes addOk
          now project allocFuel (ti + 1) fuel).1,
       (create_tag findRef repositories tag_format branch applyOk descRes addOk
          now project allocFuel (ti + 1) fuel).2.1,
       (tag, ti) :: (create_tag findRef repositories tag_format branch applyOk descRes addOk
          now project allocFuel (ti + 1) fuel).2.2)
    ∧ ∀ (t2 : String) (j2 : Int),
        (t2, j2) ∈ (create_tag findRef repositories tag_format branch applyOk descRes addOk
          now project allocFuel (ti + 1) fuel).2.2 → ti < j2 := by
  have hfin := find_fresh_tag_success findRef repositories tag_format branch
    allocFuel i tag ti halloc
  constructor
  · simp only [create_tag, halloc]
    rw [if_neg (by simpa using hassert)]
    rw [if_neg (by simpa using happly)]
    rcases hfail with hdesc | ⟨s, hdesc, hadd⟩
    · simp only [hdesc]
      rw [hfin.2]
    · simp only [hdesc]
      rw [if_neg (by simpa using hadd)]
      rw [hfin.2]
  · intro t2 j2 hmem
    have := create_tag_trace_ge findRef repositories tag_format branch applyOk descRes
      addOk now project allocFuel fuel (ti + 1) t2 j2 hmem
    omega

/-- Witness: `C10_retry_covers_describe_and_store` on one repository with
no pre-existing tags, where describing `master-1` fails and the second
attempt succeeds end to end. -/
theorem C10_witness :
    create_tag (fun _ _ => none) ["r"] "BRANCH-INDEX" "master" (fun _ => true)
        (fun _ j => if j = 1 then Except.error () else Except.ok {}) (fun _ => true)
        999 "p" 3 1 2 =
      ((create_tag (fun _ _ => none) ["r"] "BRANCH-INDEX" "master" (fun _ => true)
          (fun _ j => if j = 1 then Except.error () else Except.ok {}) (fun _ => true)
          999 "p" 3 2 1).1,
       (create_tag (fun _ _ => none) ["r"] "BRANCH-INDEX" "master" (fun _ => true)
          (fun _ j => if j = 1 then Except.error () else Except.ok {}) (fun _ => true)
          999 "p" 3 2 1).2.1,
       ("master-1", 1) :: (create_tag (fun _ _ => none) ["r"] "BRANCH-INDEX" "master"
          (fun _ => true)
          (fun _ j => if j = 1 then Except.error () else Except.ok {}) (fun _ => true)
          999 "p" 3 2 1).2.2) :=
  (C10_retry_covers_describe_and_store (fun _ _ => none) ["r"] "BRANCH-INDEX" "master"
    (fun _ => true) (fun _ j => if j = 1 then Except.error () else Except.ok {})
    (fun _ => true) 999 "p" 3 1 1 "master-1" 1 rfl (by decide) rfl
    (Or.inl rfl)).1

end Multigit
